import Mathlib

/-!
Verification of the glob pattern matcher in
`src/vendor/github.com/nilium/glob/glob.go`.

Strings are modelled as `List Char`, with one list element standing for one
byte and one code point at once (exact for single-byte text; every
`utf8.RuneLen` in the source is 1 on such text, and `ReadRune` reads one
element).  Go slice expressions `s[a:]`, `s[:b]`, `s[a:b]` become
`List.drop a`, `List.take b`, `(List.take b).drop a`.  `strings.Index`
becomes `strIndex`, returning `Option Nat` (`none` for Go's `-1`).

The search loop inside `consumeAllPreceding` does not terminate on some
inputs, so it (and the match loop, which calls it) takes a fuel parameter
and returns `Option`: `none` means the fuel ran out, and a result that is
`none` for every fuel is a genuine infinite loop of the Go code.
-/

namespace Glob

/-- The `globKind` enumeration of glob.go. -/
inductive GlobKind where
  | globMany
  | globOne
  | globString
  | globEnd
deriving DecidableEq, Repr

/-- The `globScanner` struct of glob.go.  The `scanner scanFunc` field is
determined by `kind` (the compiler always pairs `globMany` with
`consumeAllPreceding`, `globOne` with `consumeOnePreceding`, `globString`
with `consumeSubstring` and `globEnd` with `consumeEnd`), so it is not
stored; `runScan` dispatches on `kind`. -/
structure GlobScanner where
  kind : GlobKind
  substr : List Char
  start : Nat
deriving DecidableEq, Repr

/-- The package's error values: `ErrInvalidPatternType`, `ErrPatternInvalid`,
`ErrPatternEmpty`, `ErrInvalidGlobSequence`. -/
inductive GlobError where
  | invalidPatternType
  | patternInvalid
  | patternEmpty
  | invalidGlobSequence
deriving DecidableEq, Repr

/-- Go's `strings.Index`: index of the first occurrence of `sub` in `s`,
`none` standing for Go's `-1`. -/
def strIndex (s sub : List Char) : Option Nat :=
  if sub.isPrefixOf s then some 0
  else
    match s with
    | [] => none
    | _ :: t => (strIndex t sub).map (fun n => n + 1)

/-- The `for subIndex != -1` loop of `consumeAllPreceding` in glob.go, with
state `(offset, subIndex)`; `fuel` bounds the number of iterations and
`none` means the bound was hit. -/
def consumeAllLoop (str substr : List Char) :
    Nat → Nat → Option Nat → Option (Bool × List Char × Nat)
  | _, _, none => some (false, str, 0)
  | 0, _, some _ => none
  | fuel + 1, offset, some si =>
    let offset2 := offset + si
    if 0 < si then
      some (true, str.drop (offset2 + substr.length), offset2 + substr.length)
    else
      consumeAllLoop str substr fuel offset2
        (strIndex (str.drop (offset2 + si + 1)) substr)

/-- `consumeAllPreceding` of glob.go (the `globMany` scanner). -/
def consumeAllPreceding (fuel : Nat) (str substr : List Char) :
    Option (Bool × List Char × Nat) :=
  if str.length = 0 then some (decide (substr.length = 0), str, 0)
  else if substr.length = 0 then some (true, str.drop str.length, str.length)
  else consumeAllLoop str substr fuel 0 (strIndex str substr)

/-- `consumeOnePreceding` of glob.go (the `globOne` scanner).  On a
non-empty string `ReadRune` never errors and reads one element
(`size = 1`); `r.Len()` is `str.length - 1`. -/
def consumeOnePreceding (str substr : List Char) : Bool × List Char × Nat :=
  if str.length < 1 then (false, str, 0)
  else if str.length - 1 < substr.length then (false, str, 0)
  else if str.length < substr.length + 1 then (false, str, 0)
  else if substr.length = 0 then (true, str.drop 1, 1)
  else if (str.drop 1).take substr.length ≠ substr then
    (true, str.drop (1 + substr.length), 1 + substr.length)
  else (false, str, 0)

/-- `consumeSubstring` of glob.go (the `globString` scanner). -/
def consumeSubstring (str substr : List Char) : Bool × List Char × Nat :=
  if str.length < substr.length then (false, str, 0)
  else if substr.length = 0 then (true, str, 0)
  else if str.take substr.length ≠ substr then (false, str, 0)
  else (true, str.drop substr.length, substr.length)

/-- `consumeEnd` of glob.go (the `globEnd` scanner). -/
def consumeEnd (str substr : List Char) : Bool × List Char × Nat :=
  (decide (str.length = 0 ∧ substr.length = 0), str, 0)

/-- Mutation of the last element of the `wildcards` slice through the
`last` pointer in `compileGlobPattern`. -/
def updateLast (ws : List GlobScanner) (f : GlobScanner → GlobScanner) :
    List GlobScanner :=
  match ws with
  | [] => []
  | [w] => [f w]
  | w :: rest => w :: updateLast rest f

/-- The `for index, code := range pattern` loop of `compileGlobPattern`.
`index` is the position of the next element of `rest` inside `pattern`
(`rest = pattern.drop index` at every call reached from the entry point).
The `switch` falls into one of four cases or `continue`s; `startInit`
is Go's `start` before the `if start == -1` fixup, with `none` for `-1`. -/
def compileLoop (pattern : List Char) :
    Nat → List Char → List GlobScanner → Except GlobError (List GlobScanner)
  | _, [], ws => .ok ws
  | index, code :: rest, ws =>
    if code = '\\' ∨ code = '*' ∨ code = '?' ∨ index = 0 then
      let kind : GlobKind :=
        if code = '\\' then .globString
        else if code = '*' then .globMany
        else if code = '?' then .globOne
        else .globString
      let startInit : Option Nat :=
        if code = '\\' ∨ code = '*' ∨ code = '?' then none else some index
      match ws.getLast? with
      | some last =>
        if (kind = .globOne ∨ kind = .globMany) ∧ last.kind = .globMany ∧
            last.start = index then
          .error .invalidGlobSequence
        else if code = '\\' ∧ last.substr = [] then
          compileLoop pattern (index + 1) rest
            (updateLast ws fun l => { l with start := l.start + 1 })
        else
          compileLoop pattern (index + 1) rest
            ((updateLast ws fun l =>
                { l with substr := (pattern.take index).drop l.start }) ++
              [⟨kind, [], startInit.getD (index + 1)⟩])
      | none =>
        compileLoop pattern (index + 1) rest
          (ws ++ [⟨kind, [], startInit.getD (index + 1)⟩])
    else
      compileLoop pattern (index + 1) rest ws

/-- `compileGlobPattern` of glob.go: run the loop, set the last step's
substring to `pattern[last.start:]`, and append the `End` step. -/
def compileGlobPattern (pattern : List Char) :
    Except GlobError (List GlobScanner) :=
  match compileLoop pattern 0 pattern [] with
  | .error e => .error e
  | .ok ws =>
    let ws2 :=
      if ws.isEmpty then ws
      else updateLast ws fun l => { l with substr := pattern.drop l.start }
    .ok (ws2 ++ [⟨.globEnd, [], pattern.length⟩])

/-- The `GlobPattern` struct of glob.go. -/
structure GlobPattern where
  pattern : List Char
  steps : List GlobScanner
deriving DecidableEq, Repr

/-- `NewPattern` of glob.go.  A nil Go slice is modelled as `[]`, so the
`steps == nil` check (`ErrPatternInvalid`) and the `len(steps) == 0` check
(`ErrPatternEmpty`) test the same condition here; the first is taken first
exactly as in the source. -/
def NewPattern (pattern : List Char) : Except GlobError GlobPattern :=
  match compileGlobPattern pattern with
  | .error e => .error e
  | .ok steps =>
    if steps = [] then .error .patternInvalid
    else if steps.length = 0 then .error .patternEmpty
    else .ok ⟨pattern, steps⟩

/-- `test.scanner(substr, test.substr)`: dispatch to the scan function the
compiler pairs with each kind.  Only the `globMany` scanner can fail to
terminate, so only it consumes fuel. -/
def runScan (fuel : Nat) (kind : GlobKind) (input tail : List Char) :
    Option (Bool × List Char × Nat) :=
  match kind with
  | .globMany => consumeAllPreceding fuel input tail
  | .globOne => some (consumeOnePreceding input tail)
  | .globString => some (consumeSubstring input tail)
  | .globEnd => some (consumeEnd input tail)

/-- The `for stepIndex < numSteps` loop of `GlobPattern.Matches`, one
recursive call per iteration.  State: `stepIndex`, `substr`, `firstMany`
(`none` for Go's `-1`), `firstManySubstr`, `wasReset`.  On success the Go
code computes `firstManySubstr[bytesConsumed-len(test.substr):]`; on a
successful scan `bytesConsumed ≥ len(test.substr)` always holds, so Nat
subtraction is exact there. -/
def matchLoop (steps : List GlobScanner) :
    Nat → Nat → List Char → Option Nat → List Char → Bool → Option Bool
  | 0, _, _, _, _, _ => none
  | fuel + 1, stepIndex, substr, firstMany, firstManySubstr, wasReset =>
    match steps[stepIndex]? with
    | none => some (decide (substr = [] ∧ stepIndex = steps.length))
    | some test =>
      let fm :=
        if (firstMany = none ∨ firstMany = some stepIndex) ∧
            test.kind = .globMany then some stepIndex
        else firstMany
      let fms :=
        if (firstMany = none ∨ firstMany = some stepIndex) ∧
            test.kind = .globMany then substr
        else firstManySubstr
      match runScan (fuel + 1) test.kind substr test.substr with
      | none => none
      | some (matched, substr2, bytesConsumed) =>
        let fms2 :=
          if matched ∧ fm = some stepIndex then
            fms.drop (bytesConsumed - test.substr.length)
          else fms
        if matched then
          matchLoop steps fuel (stepIndex + 1) substr2 fm fms2 false
        else if fm = none ∨ stepIndex = 0 ∨ wasReset = true ∨ fms2 = [] then
          some false
        else
          matchLoop steps fuel (fm.getD 0) (fms2.drop 1) fm fms2 true

/-- `GlobPattern.Matches` of glob.go, with fuel. -/
def GlobPattern.MatchesF (p : GlobPattern) (fuel : Nat) (str : List Char) :
    Option Bool :=
  matchLoop p.steps fuel 0 str none str false

/-- `Literal.Matches` of glob.go. -/
def literalMatches (l str : List Char) : Bool := decide (l = str)

/-- The closed set of implementations of the `Pattern` interface:
`Literal`, `PatternStr` and `*GlobPattern` are the only types with the
unexported `compiled()` method. -/
inductive Pattern where
  | literal (l : List Char)
  | patternStr (s : List Char)
  | globPattern (g : GlobPattern)

/-- The closed set of implementations of the `matcher` interface. -/
inductive GlobMatcher where
  | lit (l : List Char)
  | glob (g : GlobPattern)

/-- A `matcher`'s `Matches` method, with fuel. -/
def GlobMatcher.MatchesF (m : GlobMatcher) (fuel : Nat) (str : List Char) :
    Option Bool :=
  match m with
  | .lit l => some (literalMatches l str)
  | .glob g => g.MatchesF fuel str

/-- The `compiled()` methods of the three `Pattern` implementations. -/
def Pattern.compiled : Pattern → Except GlobError GlobMatcher
  | .literal l => .ok (.lit l)
  | .patternStr s => (NewPattern s).map .glob
  | .globPattern g => .ok (.glob g)

/-- The package-level `Matches` function of glob.go: resolve the pattern,
then match.  The result pairs the boolean with the returned error
(`none` for Go's `nil`); the outer `Option` is the fuel bound. -/
def Matches (fuel : Nat) (pattern : Pattern) (str : List Char) :
    Option (Bool × Option GlobError) :=
  match pattern.compiled with
  | .error e => some (false, some e)
  | .ok m => (m.MatchesF fuel str).map (fun b => (b, none))

/-- The update of `firstMany` performed at the top of each `Matches` loop
iteration (`if (firstMany == -1 || firstMany == stepIndex) && test.kind ==
globMany`). -/
def fmUpdate (stepIndex : Nat) (test : GlobScanner) (firstMany : Option Nat) :
    Option Nat :=
  if (firstMany = none ∨ firstMany = some stepIndex) ∧
      test.kind = .globMany then some stepIndex
  else firstMany

/-- The update of `firstManySubstr` performed at the top of each `Matches`
loop iteration. -/
def fmsUpdate (stepIndex : Nat) (test : GlobScanner) (firstMany : Option Nat)
    (substr firstManySubstr : List Char) : List Char :=
  if (firstMany = none ∨ firstMany = some stepIndex) ∧
      test.kind = .globMany then substr
  else firstManySubstr

/-- `m` is the index of the first `globMany` step of the compiled pattern:
step `m` is a `globMany` step and no earlier step is. -/
def isFirstMany (steps : List GlobScanner) (m : Nat) : Prop :=
  steps[m]?.map GlobScanner.kind = some .globMany ∧
  ∀ j, j < m → steps[j]?.map GlobScanner.kind ≠ some .globMany

/-- Invariant of the match cursor between iterations of the `Matches` loop:
either no `globMany` step has been recorded yet and none occurs before the
current step, or the recorded index is the first `globMany` step of the
pattern and lies at or before the current step. -/
def cursorInv (steps : List GlobScanner) (stepIndex : Nat)
    (firstMany : Option Nat) : Prop :=
  (firstMany = none ∧
    ∀ j, j < stepIndex → steps[j]?.map GlobScanner.kind ≠ some .globMany) ∨
  (∃ m, firstMany = some m ∧ m ≤ stepIndex ∧ isFirstMany steps m)

/-- Position `i` of the pattern holds a `*` or `?` character. -/
def wildcardAt (p : List Char) (i : Nat) : Prop :=
  p[i]? = some '*' ∨ p[i]? = some '?'

/-- Some `*` occurs strictly before position `i` with only backslash
characters (possibly none) between it and position `i`. -/
def starRun (p : List Char) (i : Nat) : Prop :=
  ∃ j, j < i ∧ p[j]? = some '*' ∧ ∀ k, j < k → k < i → p[k]? = some '\\'

/-! ### Theorems -/

/-- On the string `"aa"` with substring `"a"`, the state
`(offset = 0, subIndex = 0)` of the search loop in `consumeAllPreceding`
reproduces itself: the recomputed index `strings.Index("a", "a")` is `0`
again, so the loop never makes progress, whatever the iteration bound. -/
theorem consumeAllLoop_aa_fixpoint (fuel : Nat) :
    consumeAllLoop ['a', 'a'] ['a'] fuel 0 (some 0) = none := by
  induction fuel with
  | zero => rfl
  | succ g ih =>
    have hstep : consumeAllLoop ['a', 'a'] ['a'] (g + 1) 0 (some 0) =
        consumeAllLoop ['a', 'a'] ['a'] g 0 (some 0) := by
      simp [consumeAllLoop, strIndex, List.isPrefixOf]
    rw [hstep, ih]

/-- The `globMany` scanner diverges on input `"aa"` with literal tail
`"a"`: no amount of fuel produces a result. -/
theorem consumeAllPreceding_aa_none (fuel : Nat) :
    consumeAllPreceding fuel ['a', 'a'] ['a'] = none := by
  have h0 : strIndex ['a', 'a'] ['a'] = some 0 := by
    simp [strIndex, List.isPrefixOf]
  simp only [consumeAllPreceding]
  norm_num
  rw [h0]
  exact consumeAllLoop_aa_fixpoint fuel

/-- C1: refuted by the code.  The pattern `"*a"` compiles successfully, but
matching it against the candidate `"aa"` never terminates: the
`ManyWildcard` scan's linear search loops forever once the literal tail
matches at the start of the scanned suffix twice in a row, so
`CompiledPattern.matches` is not total.  Formally, the fuelled match loop
returns no result for any fuel. -/
theorem matches_star_a_on_aa_diverges :
    NewPattern ['*', 'a'] =
      .ok ⟨['*', 'a'], [⟨.globMany, ['a'], 1⟩, ⟨.globEnd, [], 2⟩]⟩ ∧
    ∀ fuel,
      GlobPattern.MatchesF
        ⟨['*', 'a'], [⟨.globMany, ['a'], 1⟩, ⟨.globEnd, [], 2⟩]⟩ fuel
        ['a', 'a'] = none := by
  refine ⟨rfl, fun fuel => ?_⟩
  cases fuel with
  | zero => rfl
  | succ g =>
    have h := consumeAllPreceding_aa_none (g + 1)
    simp [GlobPattern.MatchesF, matchLoop, runScan, h]

/-- C2: refuted by the code.  The two-character pattern backslash-star
compiles to an empty-literal step followed by a `ManyWildcard` step with an
empty tail — the escape fails to make the `*` literal — so the compiled
pattern matches every candidate: both `"*"` and `"x"` yield `true`, where
the claim (and `NewPattern`'s own documentation of escaping) requires
`false` for `"x"`. -/
theorem matches_escaped_star_accepts_everything :
    compileGlobPattern ['\\', '*'] =
      .ok [⟨.globString, [], 1⟩, ⟨.globMany, [], 2⟩, ⟨.globEnd, [], 2⟩] ∧
    Matches 9 (.patternStr ['\\', '*']) ['*'] = some (true, none) ∧
    Matches 9 (.patternStr ['\\', '*']) ['x'] = some (true, none) := by
  exact ⟨rfl, rfl, rfl⟩

/-- C3: refuted by the code.  The `SingleWildcard` scanner's literal-tail
comparison is inverted: on input `"ab"` with tail `"b"` (one code point
followed by exactly the tail) it fails with `(false, "ab", 0)`, while on
input `"ax"` with tail `"b"` (the bytes after the code point differ from
the tail) it succeeds, consuming the code point plus the tail's length. -/
theorem consumeOnePreceding_inverted :
    consumeOnePreceding ['a', 'b'] ['b'] = (false, ['a', 'b'], 0) ∧
    consumeOnePreceding ['a', 'x'] ['b'] = (true, [], 2) := by
  exact ⟨rfl, rfl⟩

/-- C4: refuted by the code.  On input `"axa"` with tail `"a"`, the
earliest occurrence of the tail at byte position at least 1 is at index 2,
so the claim requires the result `(true, "", 3)`; the scanner instead
returns `(true, "a", 2)`: after a first occurrence at index 0, the loop
searches the suffix starting at byte 1 but forgets to add that 1 back when
slicing, so the returned slice and byte count are off by one. -/
theorem consumeAllPreceding_off_by_one :
    consumeAllPreceding 9 ['a', 'x', 'a'] ['a'] = some (true, ['a'], 2) := by
  exact rfl

/-- Running the match loop on a step list consisting of the `End` step
alone accepts exactly the empty candidate, within two iterations. -/
theorem matchLoop_end_only (s : List Char) (fuel : Nat) :
    matchLoop [⟨.globEnd, [], 0⟩] (fuel + 2) 0 s none s false =
      some (decide (s = [])) := by
  cases s with
  | nil => rfl
  | cons c t => rfl

/-- C10: compiling the empty pattern succeeds — the loop adds no step, and
the synthetic `End` step is appended, so `NewPattern` receives the
one-element step list and accepts it — and the resulting pattern matches a
candidate exactly when the candidate is empty. -/
theorem empty_pattern_matches_only_empty :
    NewPattern [] = .ok ⟨[], [⟨.globEnd, [], 0⟩]⟩ ∧
    ∀ s fuel, 2 ≤ fuel →
      GlobPattern.MatchesF ⟨[], [⟨.globEnd, [], 0⟩]⟩ fuel s =
        some (decide (s = [])) := by
  refine ⟨rfl, fun s fuel hfuel => ?_⟩
  obtain ⟨k, rfl⟩ : ∃ k, fuel = k + 2 := ⟨fuel - 2, by omega⟩
  exact matchLoop_end_only s k

/-- A run of characters none of which is `\`, `*` or `?` is skipped by the
compile loop (every such character hits the `continue` case once the index
is past 0), leaving the accumulated steps unchanged. -/
theorem compileLoop_plain (p : List Char) :
    ∀ rest index ws, 1 ≤ index →
      (∀ c ∈ rest, c ≠ '\\' ∧ c ≠ '*' ∧ c ≠ '?') →
      compileLoop p index rest ws = .ok ws := by
  intro rest
  induction rest with
  | nil => intro index ws _ _; rfl
  | cons c t ih =>
    intro index ws hidx hplain
    have hc := hplain c (List.mem_cons_self c t)
    have hcond : ¬(c = '\\' ∨ c = '*' ∨ c = '?' ∨ index = 0) := by
      rcases hc with ⟨h1, h2, h3⟩
      push_neg
      exact ⟨h1, h2, h3, by omega⟩
    simp only [compileLoop, if_neg hcond]
    exact ih (index + 1) ws (by omega)
      (fun x hx => hplain x (List.mem_cons_of_mem c hx))

/-- A non-empty pattern with no `\`, `*` or `?` compiles to a single
literal step carrying the whole pattern, followed by the `End` step. -/
theorem compileGlobPattern_noSpecial (c : Char) (t : List Char)
    (h : ∀ x ∈ c :: t, x ≠ '\\' ∧ x ≠ '*' ∧ x ≠ '?') :
    compileGlobPattern (c :: t) =
      .ok [⟨.globString, c :: t, 0⟩, ⟨.globEnd, [], (c :: t).length⟩] := by
  have hc := h c (List.mem_cons_self c t)
  have hloop : compileLoop (c :: t) 0 (c :: t) [] =
      .ok [⟨.globString, [], 0⟩] := by
    have hor : ¬(c = '\\' ∨ c = '*' ∨ c = '?') := by
      push_neg
      exact hc
    simp only [compileLoop, List.getLast?_nil, or_true, if_true,
      if_neg hc.1, if_neg hc.2.1, if_neg hc.2.2, if_neg hor,
      Option.getD_some, List.nil_append]
    exact compileLoop_plain (c :: t) t 1 [⟨.globString, [], 0⟩] (by omega)
      (fun x hx => h x (List.mem_cons_of_mem c hx))
  simp only [compileGlobPattern, hloop, List.isEmpty_cons, updateLast,
    List.drop_zero]
  rfl

/-- Running the match loop on a single literal step carrying `p` followed
by the `End` step accepts exactly the candidate `p` itself, within three
iterations. -/
theorem matchLoop_string_end (p s : List Char) (fuel : Nat) (hp : p ≠ []) :
    matchLoop [⟨.globString, p, 0⟩, ⟨.globEnd, [], p.length⟩] (fuel + 3) 0 s
      none s false = some (decide (p = s)) := by
  have hplen : p.length ≠ 0 := fun h => hp (List.length_eq_zero.mp h)
  by_cases h1 : s.length < p.length
  · have hscan : consumeSubstring s p = (false, s, 0) := by
      simp [consumeSubstring, h1]
    have hne : decide (p = s) = false := by
      apply decide_eq_false
      intro he
      subst he
      omega
    simp [matchLoop, runScan, hscan, hne]
  · by_cases h2 : s.take p.length = p
    · have hscan : consumeSubstring s p =
          (true, s.drop p.length, p.length) := by
        simp [consumeSubstring, h1, h2, hplen]
      by_cases h3 : s.drop p.length = []
      · have hs : p = s := by
          conv_rhs => rw [← List.take_append_drop p.length s]
          rw [h2, h3, List.append_nil]
        have hd : decide (p = s) = true := decide_eq_true hs
        simp [matchLoop, runScan, hscan, consumeEnd, h3, hd]
      · have hne : decide (p = s) = false := by
          apply decide_eq_false
          intro he
          subst he
          exact h3 (List.drop_length p)
        simp [matchLoop, runScan, hscan, consumeEnd, h3, hne]
    · have hscan : consumeSubstring s p = (false, s, 0) := by
        simp [consumeSubstring, h1, h2, hplen]
      have hne : decide (p = s) = false := by
        apply decide_eq_false
        intro he
        subst he
        exact h2 (List.take_length p)
      simp [matchLoop, runScan, hscan, hne]

/-- C6 counterexample: the pattern `"a\b"` contains no wildcard character
(`*` or `?`), and equals the candidate `"a\b"`, yet `matches` returns
`false`: the compiler folds the backslash into the pending literal by
bumping its start index, producing the literal step `"\b"` which the
candidate does not begin with. -/
theorem matches_wildcard_free_cex :
    Matches 9 (.patternStr ['a', '\\', 'b']) ['a', '\\', 'b'] =
      some (false, none) := by
  exact rfl

/-- C6 (amended): for every pattern containing no wildcard character and
no backslash, and every candidate `s`, `matches` succeeds exactly when the
pattern equals the candidate. -/
theorem matches_wildcard_free (p s : List Char)
    (h : ∀ c ∈ p, c ≠ '*' ∧ c ≠ '?' ∧ c ≠ '\\') (fuel : Nat)
    (hfuel : 3 ≤ fuel) :
    Matches fuel (.patternStr p) s = some (decide (p = s), none) := by
  obtain ⟨k, rfl⟩ : ∃ k, fuel = k + 3 := ⟨fuel - 3, by omega⟩
  cases p with
  | nil =>
    have h1 : Matches (k + 3) (.patternStr []) s =
        (matchLoop [⟨.globEnd, [], 0⟩] (k + 3) 0 s none s false).map
          (fun b => (b, none)) := rfl
    have h2 : k + 3 = (k + 1) + 2 := by omega
    rw [h1, h2, matchLoop_end_only s (k + 1)]
    by_cases hs : s = []
    · simp [hs]
    · simp [hs, Ne.symm hs]
  | cons c t =>
    have hcomp := compileGlobPattern_noSpecial c t
      (fun x hx => ⟨(h x hx).2.2, (h x hx).1, (h x hx).2.1⟩)
    have hnp : NewPattern (c :: t) =
        .ok ⟨c :: t,
          [⟨.globString, c :: t, 0⟩, ⟨.globEnd, [], (c :: t).length⟩]⟩ := by
      simp [NewPattern, hcomp]
    have h1 : Matches (k + 3) (.patternStr (c :: t)) s =
        (matchLoop [⟨.globString, c :: t, 0⟩, ⟨.globEnd, [], (c :: t).length⟩]
            (k + 3) 0 s none s false).map (fun b => (b, none)) := by
      simp [Matches, Pattern.compiled, hnp, Except.map, GlobMatcher.MatchesF,
        GlobPattern.MatchesF]
    rw [h1, matchLoop_string_end (c :: t) s k (List.cons_ne_nil c t)]
    rfl

/-- C6 witness: the amended statement at the concrete wildcard-free
pattern `"ab"`, matched against `"ab"` (true) with minimal fuel. -/
theorem matches_wildcard_free_witness :
    Matches 3 (.patternStr ['a', 'b']) ['a', 'b'] = some (true, none) := by
  have h := matches_wildcard_free ['a', 'b'] ['a', 'b'] (by decide) 3
    (by decide)
  simpa using h

/-- C5: when the scan of the current step fails, the match loop rejects if
the (just-updated) first-`ManyWildcard` record is still unset, or the
failing step is step 0, or the previous transition was a backtrack, or the
(just-updated) saved checkpoint is empty; otherwise it rewinds the step
index to the recorded first `ManyWildcard` step — which, under the cursor
invariant, is the first `ManyWildcard` step of the whole pattern, never a
later one — sets the remaining input to the checkpoint minus exactly one
leading character, and sets the just-backtracked flag. -/
theorem matchLoop_failure_backtracks (steps : List GlobScanner)
    (fuel stepIndex : Nat) (substr : List Char) (firstMany : Option Nat)
    (firstManySubstr : List Char) (wasReset : Bool) (test : GlobScanner)
    (out : List Char) (n : Nat)
    (hstep : steps[stepIndex]? = some test)
    (hinv : cursorInv steps stepIndex firstMany)
    (hscan : runScan (fuel + 1) test.kind substr test.substr =
      some (false, out, n)) :
    (matchLoop steps (fuel + 1) stepIndex substr firstMany firstManySubstr
        wasReset =
      if fmUpdate stepIndex test firstMany = none ∨ stepIndex = 0 ∨
          wasReset = true ∨
          fmsUpdate stepIndex test firstMany substr firstManySubstr = []
      then some false
      else
        matchLoop steps fuel ((fmUpdate stepIndex test firstMany).getD 0)
          ((fmsUpdate stepIndex test firstMany substr firstManySubstr).drop 1)
          (fmUpdate stepIndex test firstMany)
          (fmsUpdate stepIndex test firstMany substr firstManySubstr)
          true) ∧
    ∀ m, fmUpdate stepIndex test firstMany = some m → isFirstMany steps m := by
  constructor
  · by_cases hc : (firstMany = none ∨ firstMany = some stepIndex) ∧
        test.kind = .globMany
    · simp only [matchLoop, hstep, hscan, fmUpdate, fmsUpdate, if_pos hc]
      simp
    · simp only [matchLoop, hstep, hscan, fmUpdate, fmsUpdate, if_neg hc]
      simp
  · intro m hm
    simp only [fmUpdate] at hm
    by_cases hc : (firstMany = none ∨ firstMany = some stepIndex) ∧
        test.kind = .globMany
    · rw [if_pos hc] at hm
      injection hm with hm
      subst hm
      rcases hinv with ⟨hfm, hnone⟩ | ⟨m0, hfm, _, hfirst⟩
      · exact ⟨by simp [hstep, hc.2], hnone⟩
      · rcases hc.1 with h | h
        · rw [hfm] at h
          exact absurd h (by simp)
        · rw [hfm] at h
          injection h with h
          subst h
          exact hfirst
    · rw [if_neg hc] at hm
      rcases hinv with ⟨hfm, _⟩ | ⟨m0, hfm, _, hfirst⟩
      · rw [hfm] at hm
        cases hm
      · rw [hfm] at hm
        injection hm with hm
        subst hm
        exact hfirst

/-- C5 witness: the theorem applied to a concrete failing state.  The
pattern shape is that of `"a*b"`; step 2 (`End`) fails on remaining input
`"z"`, the recorded first `ManyWildcard` is step 1 with checkpoint
`"qb"`, so the loop rewinds to step 1 with remaining input `"b"` and the
just-backtracked flag set. -/
theorem matchLoop_failure_backtracks_witness :
    matchLoop
        [⟨.globString, ['a'], 0⟩, ⟨.globMany, ['b'], 2⟩, ⟨.globEnd, [], 3⟩]
        6 2 ['z'] (some 1) ['q', 'b'] false =
      matchLoop
        [⟨.globString, ['a'], 0⟩, ⟨.globMany, ['b'], 2⟩, ⟨.globEnd, [], 3⟩]
        5 1 ['b'] (some 1) ['q', 'b'] true := by
  have h := (matchLoop_failure_backtracks
    [⟨.globString, ['a'], 0⟩, ⟨.globMany, ['b'], 2⟩, ⟨.globEnd, [], 3⟩]
    5 2 ['z'] (some 1) ['q', 'b'] false ⟨.globEnd, [], 3⟩ ['z'] 0 rfl
    (Or.inr ⟨1, rfl, by omega, ⟨by decide, by decide⟩⟩) rfl).1
  simpa [fmUpdate, fmsUpdate] using h

/-- The only error the compile loop ever produces is
`invalidGlobSequence`. -/
theorem compileLoop_error_eq (p : List Char) :
    ∀ rest index ws e, compileLoop p index rest ws = .error e →
      e = .invalidGlobSequence := by
  intro rest
  induction rest with
  | nil =>
    intro index ws e h
    exact Except.noConfusion h
  | cons c t ih =>
    intro index ws e h
    simp only [compileLoop] at h
    repeat' split at h
    all_goals
      first
      | (injection h with h; exact h.symm)
      | exact ih _ _ _ h

/-- Every error from `compileGlobPattern` is `invalidGlobSequence`. -/
theorem compileGlobPattern_error_eq (p : List Char) (e : GlobError)
    (h : compileGlobPattern p = .error e) : e = .invalidGlobSequence := by
  unfold compileGlobPattern at h
  cases hl : compileLoop p 0 p [] with
  | error e2 =>
    rw [hl] at h
    injection h with h
    subst h
    exact compileLoop_error_eq p p 0 [] e2 hl
  | ok ws =>
    rw [hl] at h
    exact Except.noConfusion h

/-- C8: whenever compilation succeeds, the returned step sequence is
non-empty and ends with the `End` step (whose literal tail is empty and
whose start is the pattern length); consequently `NewPattern` never
returns the defensive `ErrPatternInvalid` (compiler produced no steps) —
nor `ErrPatternEmpty`. -/
theorem compile_ends_with_end_step (p : List Char) :
    (∀ steps, compileGlobPattern p = .ok steps →
      steps ≠ [] ∧ steps.getLast? = some ⟨.globEnd, [], p.length⟩) ∧
    NewPattern p ≠ .error .patternInvalid ∧
    NewPattern p ≠ .error .patternEmpty := by
  have hok : ∀ steps, compileGlobPattern p = .ok steps →
      steps ≠ [] ∧ steps.getLast? = some ⟨.globEnd, [], p.length⟩ := by
    intro steps h
    unfold compileGlobPattern at h
    cases hl : compileLoop p 0 p [] with
    | error e2 =>
      rw [hl] at h
      exact Except.noConfusion h
    | ok ws =>
      rw [hl] at h
      simp only at h
      injection h with h
      subst h
      constructor
      · simp
      · exact List.getLast?_concat _
  have hnew : ∀ eb, NewPattern p = .error eb → eb = .invalidGlobSequence := by
    intro eb hbad
    cases hc : compileGlobPattern p with
    | error e =>
      simp only [NewPattern, hc] at hbad
      injection hbad with hbad
      subst hbad
      exact compileGlobPattern_error_eq p _ hc
    | ok steps =>
      have hsteps := hok steps hc
      simp only [NewPattern, hc] at hbad
      rw [if_neg hsteps.1] at hbad
      rw [if_neg (fun hz => hsteps.1 (List.length_eq_zero.mp hz))] at hbad
      exact Except.noConfusion hbad
  refine ⟨hok, fun hbad => ?_, fun hbad => ?_⟩
  · exact absurd (hnew _ hbad) (by simp)
  · exact absurd (hnew _ hbad) (by simp)

/-- No `*` occurs strictly before position 0. -/
theorem starRun_zero (p : List Char) : ¬starRun p 0 := by
  rintro ⟨j, hj, _, _⟩
  omega

/-- A backslash at position `n` extends any backslash run across it. -/
theorem starRun_succ_bslash (p : List Char) (n : Nat)
    (hn : p[n]? = some '\\') : starRun p (n + 1) ↔ starRun p n := by
  constructor
  · rintro ⟨j, hj, hstar, hbet⟩
    have hjn : j ≠ n := by
      intro h
      subst h
      rw [hn] at hstar
      injection hstar with h
      exact absurd h (by decide)
    exact ⟨j, by omega, hstar, fun k h1 h2 => hbet k h1 (by omega)⟩
  · rintro ⟨j, hj, hstar, hbet⟩
    refine ⟨j, by omega, hstar, fun k h1 h2 => ?_⟩
    by_cases hk : k = n
    · subst hk
      exact hn
    · exact hbet k h1 (by omega)

/-- A `*` at position `n` starts a (trivial) run reaching position
`n + 1`. -/
theorem starRun_succ_star (p : List Char) (n : Nat)
    (hn : p[n]? = some '*') : starRun p (n + 1) :=
  ⟨n, by omega, hn, fun k h1 h2 => by omega⟩

/-- A character at position `n` that is neither `*` nor `\` breaks every
run at position `n + 1`. -/
theorem starRun_succ_other (p : List Char) (n : Nat) (c : Char)
    (hn : p[n]? = some c) (hstar : c ≠ '*') (hbs : c ≠ '\\') :
    ¬starRun p (n + 1) := by
  rintro ⟨j, hj, hstarj, hbet⟩
  by_cases hjn : j = n
  · subst hjn
    rw [hn] at hstarj
    injection hstarj with h
    exact hstar h
  · have hb := hbet n (by omega) (by omega)
    rw [hn] at hb
    injection hb with h
    exact hbs h

/-- `updateLast` leaves emptiness unchanged. -/
theorem updateLast_eq_nil_iff (ws : List GlobScanner)
    (f : GlobScanner → GlobScanner) : updateLast ws f = [] ↔ ws = [] := by
  cases ws with
  | nil => simp [updateLast]
  | cons w rest =>
    cases rest with
    | nil => simp [updateLast]
    | cons w2 rest2 => simp [updateLast]

/-- `updateLast` applies `f` to the last element and nothing else, as seen
through `getLast?`. -/
theorem getLast?_updateLast (f : GlobScanner → GlobScanner) :
    ∀ ws : List GlobScanner,
      (updateLast ws f).getLast? = ws.getLast?.map f := by
  intro ws
  induction ws with
  | nil => rfl
  | cons w rest ih =>
    cases rest with
    | nil => rfl
    | cons w2 rest2 =>
      have h2 : updateLast (w2 :: rest2) f ≠ [] := by
        rw [Ne, updateLast_eq_nil_iff]
        simp
      cases hu : updateLast (w2 :: rest2) f with
      | nil => exact absurd hu h2
      | cons u us =>
        have h1 : updateLast (w :: w2 :: rest2) f =
            w :: updateLast (w2 :: rest2) f := rfl
        rw [h1, hu, List.getLast?_cons_cons, ← hu, ih,
          List.getLast?_cons_cons]

/-- The step from `∃ i ≥ n + 1` to `∃ i ≥ n` when position `n` itself is
not an offending wildcard. -/
theorem exists_wild_succ (p : List Char) (n : Nat)
    (h0 : ¬(wildcardAt p n ∧ starRun p n)) :
    ((∃ i, n + 1 ≤ i ∧ wildcardAt p i ∧ starRun p i) ↔
      (∃ i, n ≤ i ∧ wildcardAt p i ∧ starRun p i)) := by
  constructor
  · rintro ⟨i, hi, hw, hs⟩
    exact ⟨i, by omega, hw, hs⟩
  · rintro ⟨i, hi, hw, hs⟩
    refine ⟨i, ?_, hw, hs⟩
    rcases Nat.eq_or_lt_of_le hi with h | h
    · subst h
      exact absurd ⟨hw, hs⟩ h0
    · omega

/-- Characterization of the compile loop's failure.  Starting at position
`n` with accumulated steps `ws` satisfying the loop invariant — the last
accumulated step has an empty substring and a start at most `n`, and it is
a `globMany` step with start exactly `n` precisely when a `*` reaches
position `n` through backslashes — the loop fails exactly when some
position `i ≥ n` holds a `*` or `?` preceded by an earlier `*` with only
backslashes between them. -/
theorem compileLoop_error_iff (p : List Char) :
    ∀ rest n ws, p.drop n = rest →
      (ws = [] → n = 0) →
      (∀ last, ws.getLast? = some last → last.substr = [] ∧
        last.start ≤ n ∧
        ((last.kind = .globMany ∧ last.start = n) ↔ starRun p n)) →
      (compileLoop p n rest ws = .error .invalidGlobSequence ↔
        ∃ i, n ≤ i ∧ wildcardAt p i ∧ starRun p i) := by
  intro rest
  induction rest with
  | nil =>
    intro n ws hdrop _ _
    constructor
    · intro h
      exact Except.noConfusion h
    · rintro ⟨i, hni, hw, _⟩
      have hlen : p.length ≤ n := by
        have hld := congrArg List.length hdrop
        rw [List.length_drop] at hld
        simp at hld
        omega
      have hi : i < p.length := by
        rcases hw with hw | hw <;>
          exact (List.getElem?_eq_some_iff.mp hw).1
      omega
  | cons c rest ih =>
    intro n ws hdrop hnil hlast
    have hcn : p[n]? = some c := by
      have hg := List.getElem?_drop p n 0
      rw [hdrop] at hg
      simpa using hg.symm
    have hdrop1 : p.drop (n + 1) = rest := by
      have hdd := List.drop_drop 1 n p
      rw [hdrop] at hdd
      simpa using hdd.symm
    by_cases hbs : c = '\\'
    · subst hbs
      have hnw : ¬(wildcardAt p n ∧ starRun p n) := by
        rintro ⟨hw, _⟩
        rcases hw with hw | hw <;> rw [hcn] at hw <;>
          injection hw with hw <;> exact absurd hw (by decide)
      cases hws : ws.getLast? with
      | none =>
        have hwsnil : ws = [] := List.getLast?_eq_none_iff.mp hws
        subst hwsnil
        have hn0 : n = 0 := hnil rfl
        subst hn0
        have hrec := ih 1 [⟨.globString, [], 1⟩] hdrop1 (by simp) (by
          intro last hl
          rw [List.getLast?_singleton] at hl
          injection hl with hl
          subst hl
          refine ⟨rfl, Nat.le_refl _, iff_of_false (by simp) ?_⟩
          rw [starRun_succ_bslash p 0 hcn]
          exact starRun_zero p)
        have hstep : compileLoop p 0 ('\\' :: rest) [] =
            compileLoop p 1 rest [⟨.globString, [], 1⟩] := by
          simp [compileLoop]
        rw [hstep, hrec]
        exact exists_wild_succ p 0 hnw
      | some last =>
        obtain ⟨hsub, hstart, hbi⟩ := hlast last hws
        have hwsne : ws ≠ [] := by
          intro hw
          rw [hw] at hws
          simp at hws
        have hrec := ih (n + 1)
          (updateLast ws fun l => { l with start := l.start + 1 }) hdrop1
          (fun h => absurd ((updateLast_eq_nil_iff ws _).mp h) hwsne) (by
          intro l2 hl2
          rw [getLast?_updateLast, hws] at hl2
          simp only [Option.map_some'] at hl2
          injection hl2 with hl2
          subst hl2
          show last.substr = [] ∧ last.start + 1 ≤ n + 1 ∧
            ((last.kind = GlobKind.globMany ∧ last.start + 1 = n + 1) ↔
              starRun p (n + 1))
          refine ⟨hsub, Nat.succ_le_succ hstart, ?_⟩
          rw [starRun_succ_bslash p n hcn, ← hbi]
          constructor
          · rintro ⟨hk, hs⟩
            exact ⟨hk, by omega⟩
          · rintro ⟨hk, hs⟩
            exact ⟨hk, by omega⟩)
        have hstep : compileLoop p n ('\\' :: rest) ws =
            compileLoop p (n + 1) rest
              (updateLast ws fun l => { l with start := l.start + 1 }) := by
          simp [compileLoop, hws, hsub]
        rw [hstep, hrec]
        exact exists_wild_succ p n hnw
    · by_cases hst : c = '*'
      · subst hst
        cases hws : ws.getLast? with
        | none =>
          have hwsnil : ws = [] := List.getLast?_eq_none_iff.mp hws
          subst hwsnil
          have hn0 : n = 0 := hnil rfl
          subst hn0
          have hrec := ih 1 [⟨.globMany, [], 1⟩] hdrop1 (by simp) (by
            intro last hl
            rw [List.getLast?_singleton] at hl
            injection hl with hl
            subst hl
            exact ⟨rfl, Nat.le_refl _,
              iff_of_true ⟨rfl, rfl⟩ (starRun_succ_star p 0 hcn)⟩)
          have hstep : compileLoop p 0 ('*' :: rest) [] =
              compileLoop p 1 rest [⟨.globMany, [], 1⟩] := by
            simp [compileLoop]
          rw [hstep, hrec]
          refine exists_wild_succ p 0 ?_
          rintro ⟨_, hs⟩
          exact starRun_zero p hs
        | some last =>
          obtain ⟨hsub, hstart, hbi⟩ := hlast last hws
          by_cases herr : last.kind = .globMany ∧ last.start = n
          · have hstep : compileLoop p n ('*' :: rest) ws =
                .error .invalidGlobSequence := by
              simp [compileLoop, hws, herr.1, herr.2]
            rw [hstep]
            exact iff_of_true rfl ⟨n, Nat.le_refl n, Or.inl hcn, hbi.mp herr⟩
          · have hrec := ih (n + 1)
              ((updateLast ws fun l =>
                  { l with substr := (p.take n).drop l.start }) ++
                [⟨.globMany, [], n + 1⟩]) hdrop1 (by simp) (by
              intro l2 hl2
              rw [List.getLast?_concat] at hl2
              injection hl2 with hl2
              subst hl2
              exact ⟨rfl, Nat.le_refl _,
                iff_of_true ⟨rfl, rfl⟩ (starRun_succ_star p n hcn)⟩)
            have hstep : compileLoop p n ('*' :: rest) ws =
                compileLoop p (n + 1) rest
                  ((updateLast ws fun l =>
                      { l with substr := (p.take n).drop l.start }) ++
                    [⟨.globMany, [], n + 1⟩]) := by
              simp [compileLoop, hws, herr]
            rw [hstep, hrec]
            refine exists_wild_succ p n ?_
            rintro ⟨_, hs⟩
            exact herr (hbi.mpr hs)
      · by_cases hq : c = '?'
        · subst hq
          cases hws : ws.getLast? with
          | none =>
            have hwsnil : ws = [] := List.getLast?_eq_none_iff.mp hws
            subst hwsnil
            have hn0 : n = 0 := hnil rfl
            subst hn0
            have hrec := ih 1 [⟨.globOne, [], 1⟩] hdrop1 (by simp) (by
              intro last hl
              rw [List.getLast?_singleton] at hl
              injection hl with hl
              subst hl
              refine ⟨rfl, Nat.le_refl _, iff_of_false (by simp) ?_⟩
              exact starRun_succ_other p 0 '?' hcn (by decide) (by decide))
            have hstep : compileLoop p 0 ('?' :: rest) [] =
                compileLoop p 1 rest [⟨.globOne, [], 1⟩] := by
              simp [compileLoop]
            rw [hstep, hrec]
            refine exists_wild_succ p 0 ?_
            rintro ⟨_, hs⟩
            exact starRun_zero p hs
          | some last =>
            obtain ⟨hsub, hstart, hbi⟩ := hlast last hws
            by_cases herr : last.kind = .globMany ∧ last.start = n
            · have hstep : compileLoop p n ('?' :: rest) ws =
                  .error .invalidGlobSequence := by
                simp [compileLoop, hws, herr.1, herr.2]
              rw [hstep]
              exact iff_of_true rfl
                ⟨n, Nat.le_refl n, Or.inr hcn, hbi.mp herr⟩
            · have hrec := ih (n + 1)
                ((updateLast ws fun l =>
                    { l with substr := (p.take n).drop l.start }) ++
                  [⟨.globOne, [], n + 1⟩]) hdrop1 (by simp) (by
                intro l2 hl2
                rw [List.getLast?_concat] at hl2
                injection hl2 with hl2
                subst hl2
                refine ⟨rfl, Nat.le_refl _, iff_of_false (by simp) ?_⟩
                exact starRun_succ_other p n '?' hcn (by decide) (by decide))
              have hstep : compileLoop p n ('?' :: rest) ws =
                  compileLoop p (n + 1) rest
                    ((updateLast ws fun l =>
                        { l with substr := (p.take n).drop l.start }) ++
                      [⟨.globOne, [], n + 1⟩]) := by
                simp [compileLoop, hws, herr]
              rw [hstep, hrec]
              refine exists_wild_succ p n ?_
              rintro ⟨_, hs⟩
              exact herr (hbi.mpr hs)
        · have hnw : ¬(wildcardAt p n ∧ starRun p n) := by
            rintro ⟨hw, _⟩
            rcases hw with hw | hw <;> rw [hcn] at hw <;>
              injection hw with hw
            · exact hst hw
            · exact hq hw
          by_cases hn0 : n = 0
          · subst hn0
            cases hws : ws.getLast? with
            | none =>
              have hwsnil : ws = [] := List.getLast?_eq_none_iff.mp hws
              subst hwsnil
              have hrec := ih 1 [⟨.globString, [], 0⟩] hdrop1 (by simp) (by
                intro last hl
                rw [List.getLast?_singleton] at hl
                injection hl with hl
                subst hl
                refine ⟨rfl, Nat.zero_le _, iff_of_false (by simp) ?_⟩
                exact starRun_succ_other p 0 c hcn hst hbs)
              have hstep : compileLoop p 0 (c :: rest) [] =
                  compileLoop p 1 rest [⟨.globString, [], 0⟩] := by
                simp [compileLoop, hbs, hst, hq]
              rw [hstep, hrec]
              exact exists_wild_succ p 0 hnw
            | some last =>
              obtain ⟨hsub, hstart, hbi⟩ := hlast last hws
              have hrec := ih 1
                ((updateLast ws fun l =>
                    { l with substr := (p.take 0).drop l.start }) ++
                  [⟨.globString, [], 0⟩]) hdrop1 (by simp) (by
                intro l2 hl2
                rw [List.getLast?_concat] at hl2
                injection hl2 with hl2
                subst hl2
                refine ⟨rfl, Nat.zero_le _, iff_of_false (by simp) ?_⟩
                exact starRun_succ_other p 0 c hcn hst hbs)
              have hstep : compileLoop p 0 (c :: rest) ws =
                  compileLoop p 1 rest
                    ((updateLast ws fun l =>
                        { l with substr := (p.take 0).drop l.start }) ++
                      [⟨.globString, [], 0⟩]) := by
                simp [compileLoop, hws, hbs, hst, hq]
              rw [hstep, hrec]
              exact exists_wild_succ p 0 hnw
          · have hcond : ¬(c = '\\' ∨ c = '*' ∨ c = '?' ∨ n = 0) := by
              push_neg
              exact ⟨hbs, hst, hq, hn0⟩
            have hrec := ih (n + 1) ws hdrop1
              (fun h => absurd (hnil h) hn0) (by
              intro last hl
              obtain ⟨hsub2, hstart2, hbi2⟩ := hlast last hl
              refine ⟨hsub2, by omega, iff_of_false ?_ ?_⟩
              · rintro ⟨_, hs⟩
                omega
              · exact starRun_succ_other p n c hcn hst hbs)
            have hstep : compileLoop p n (c :: rest) ws =
                compileLoop p (n + 1) rest ws := by
              simp only [compileLoop, if_neg hcond]
            rw [hstep, hrec]
            exact exists_wild_succ p n hnw

/-- `compileGlobPattern` fails exactly when some `*` or `?` of the pattern
is preceded by an earlier `*` with only backslashes in between; the error
is then `invalidGlobSequence`. -/
theorem compileGlobPattern_error_iff (p : List Char) :
    compileGlobPattern p = .error .invalidGlobSequence ↔
      ∃ i, wildcardAt p i ∧ starRun p i := by
  have hloop := compileLoop_error_iff p p 0 [] (by simp) (fun _ => rfl)
    (fun last hl => by simp at hl)
  constructor
  · intro h
    unfold compileGlobPattern at h
    cases hl : compileLoop p 0 p [] with
    | error e =>
      rw [hl] at h
      injection h with h
      subst h
      obtain ⟨i, _, hw, hs⟩ := hloop.mp hl
      exact ⟨i, hw, hs⟩
    | ok ws =>
      rw [hl] at h
      exact Except.noConfusion h
  · rintro ⟨i, hw, hs⟩
    have herr := hloop.mpr ⟨i, Nat.zero_le i, hw, hs⟩
    unfold compileGlobPattern
    rw [herr]

/-- C7 counterexample: in the three-character pattern star-backslash-star
the second star is escaped, so under the claim's reading there is literal
(escaped) text between the two wildcards and compilation should succeed;
the compiler nevertheless fails with `InvalidGlobSequence`, because the
backslash merely bumps the pending literal's start index, keeping the
escaped star adjacent to the preceding `*` in the adjacency check. -/
theorem compile_escaped_adjacency_cex :
    NewPattern ['*', '\\', '*'] = .error .invalidGlobSequence := by
  exact rfl

/-- C7 (amended): `compile` fails — always with `InvalidGlobSequence` —
exactly when some `*` or `?` character of the pattern is preceded by an
earlier `*` with only backslash characters (possibly none) between the
two; in particular `"a**b"` and `"a*?b"` fail with
`InvalidGlobSequence`. -/
theorem compile_invalid_sequence_iff :
    (∀ p : List Char, NewPattern p = .error .invalidGlobSequence ↔
      ∃ i, wildcardAt p i ∧ starRun p i) ∧
    NewPattern ['a', '*', '*', 'b'] = .error .invalidGlobSequence ∧
    NewPattern ['a', '*', '?', 'b'] = .error .invalidGlobSequence := by
  refine ⟨fun p => ?_, rfl, rfl⟩
  rw [← compileGlobPattern_error_iff p]
  cases hc : compileGlobPattern p with
  | error e =>
    simp only [NewPattern, hc]
    simp
  | ok steps =>
    simp only [NewPattern, hc]
    constructor
    · intro h
      split at h
      · exact absurd (Except.error.inj h) (by simp)
      · split at h
        · exact absurd (Except.error.inj h) (by simp)
        · exact Except.noConfusion h
    · intro h
      exact Except.noConfusion h

end Glob
